import Mathlib

/-!
Verification of the NIR spectral preprocessing module (`src/preprocessing.py`):
multiplicative scatter correction (`msc`), standard normal variate (`snv`),
window smoothing (`smooth`) and Savitzky-Golay filtering (`savgol`).

Matrices of spectra are embedded as lists of rows of real numbers; the
floating-point arithmetic of the source is idealized as exact real arithmetic.
Fallible operations (which raise in Python) return `Except String`.
The numpy/scipy primitives the module calls (`np.polyfit`,
`scipy.signal.windows.get_window`, `scipy.ndimage.convolve`,
`scipy.signal.savgol_filter`) are not part of the repository source; their
behavior is modelled from the specification, as noted on each definition.
-/

namespace Preprocessing

noncomputable section

abbrev Row : Type := List ℝ

abbrev Mat : Type := List Row

/-- Arithmetic mean of a list of reals (`np.mean` on a 1-D array);
the empty list gets the junk value `0/0 = 0`. -/
def mean (r : Row) : ℝ := r.sum / r.length

/-- Population variance (N-divisor, `np.var` / the square of `np.std`
with the default `ddof=0`). -/
def pvariance (r : Row) : ℝ := (r.map (fun x => (x - mean r) ^ 2)).sum / r.length

/-- Population standard deviation (`np.std`, default `ddof=0`). -/
def pstd (r : Row) : ℝ := Real.sqrt (pvariance r)

/-- Subtract a row's own mean from each of its entries
(`input_data[i,:] -= input_data[i,:].mean()`). -/
def centerRow (r : Row) : Row := r.map (fun x => x - mean r)

/-- Row-wise mean-centering of a matrix (the first loop of `msc`). -/
def centerRows (M : Mat) : Mat := M.map centerRow

/-- Column-wise mean (`np.mean(input_data, axis=0)`) of a rectangular matrix:
entry `j` is the mean of the `j`-th entries of the rows. -/
def colMeans (M : Mat) : Row :=
  (List.range (M.headD []).length).map (fun j => mean (M.map (fun r => r.getD j 0)))

/-- Error message for a 1-D length mismatch, reporting expected and actual
lengths. -/
def lengthErr (expected actual : ℕ) : String :=
  s!"shape mismatch: expected length {expected}, actual {actual}"

/-- Modelled from the spec: `np.polyfit(x, y, 1, full=True)` (numpy is not in
`src/`), i.e. the degree-1 ordinary least-squares fit `y ≈ a*x + b`.
It fails on a length mismatch between `x` and `y` (the spec requires a
shape-mismatch error identifying expected vs. actual length) and otherwise
returns `(a, b)` given by the normal equations of the least-squares problem. -/
def polyfit1 (x y : Row) : Except String (ℝ × ℝ) :=
  if x.length ≠ y.length then .error (lengthErr y.length x.length)
  else
    let n : ℝ := x.length
    let a := (n * (x.zipWith (fun u v => u * v) y).sum - x.sum * y.sum) /
      (n * (x.map (fun u => u ^ 2)).sum - x.sum ^ 2)
    .ok (a, (y.sum - a * x.sum) / n)

/-- `mapE f` runs `f` on the elements in order, stopping at the first error:
the embedding of a Python loop whose body may raise. -/
def mapE (f : Row → Except String Row) : Mat → Except String Mat
  | [] => .ok []
  | r :: rs =>
    match f r with
    | .error e => .error e
    | .ok s => (mapE f rs).map (fun trs => s :: trs)

/-- Multiplicative scatter correction, from `src/preprocessing.py` lines 7-38:
work on a copy, mean-center each row, take the reference to be the supplied one
or else the column-wise mean of the centered matrix, then per row regress the
centered row on the reference with `np.polyfit(ref, row, 1)` and return
`(row - intercept) / slope`. -/
def msc (input_data : Mat) (reference : Option Row) : Except String Mat :=
  let centered := centerRows input_data
  let ref := match reference with
    | none => colMeans centered
    | some r => r
  mapE (fun r => (polyfit1 ref r).map (fun ab => r.map (fun x => (x - ab.2) / ab.1)))
    centered

/-- `msc` together with the state of the caller's buffer after the call:
the source copies `input_data` (line 19) and writes only to the copy and to
the fresh `data_msc`, so the caller's buffer is returned unchanged. -/
def mscRun (input_data : Mat) (reference : Option Row) :
    Except String Mat × Mat :=
  (msc input_data reference, input_data)

/-- Covariance (N-divisor) of two equally long lists. -/
def cov (x y : Row) : ℝ :=
  (x.zipWith (fun u v => (u - mean x) * (v - mean y)) y).sum / x.length

/-- The ordinary least-squares fit `y ≈ a*x + b` written in the spec's terms:
slope `a = cov(x,y)/var(x)`, intercept `b = mean y - a * mean x`. -/
def olsFit (x y : Row) : ℝ × ℝ :=
  let a := cov x y / pvariance x
  (a, mean y - a * mean x)

/-- Sum of the residuals `y_i - (a*x_i + b)` of a linear fit. -/
def residSum0 (x y : Row) (ab : ℝ × ℝ) : ℝ :=
  (x.zipWith (fun u v => v - (ab.1 * u + ab.2)) y).sum

/-- Sum of the residuals weighted by the regressor, `x_i * (y_i - (a*x_i + b))`. -/
def residSum1 (x y : Row) (ab : ℝ × ℝ) : ℝ :=
  (x.zipWith (fun u v => u * (v - (ab.1 * u + ab.2))) y).sum

/-- The `msc` algorithm as the spec states it (section 4.1): mean-center each
row, use the supplied reference or else the column mean of the centered matrix,
fit slope and intercept by ordinary least squares, correct as
`(row - b) / a`. -/
def mscSpec (M : Mat) (reference : Option Row) : Mat :=
  let centered := centerRows M
  let ref := match reference with
    | none => colMeans centered
    | some r => r
  centered.map (fun r =>
    let ab := olsFit ref r
    r.map (fun x => (x - ab.2) / ab.1))

/-- One row of the SNV correction: `(row - mean(row)) / std(row)` with the
population standard deviation. -/
def snvRow (r : Row) : Row := r.map (fun x => (x - mean r) / pstd r)

/-- Standard normal variate correction, from `src/preprocessing.py`
lines 40-59: each row of the fresh output array is
`(input_data[i,:] - np.mean(input_data[i,:])) / np.std(input_data[i,:])`. -/
def snv (input_data : Mat) : Mat := input_data.map snvRow

/-- `snv` together with the caller's buffer after the call: the source writes
only to the fresh `output_data`, so the input is returned unchanged. -/
def snvRun (input_data : Mat) : Mat × Mat := (snv input_data, input_data)

/-- The boundary modes accepted by `scipy.ndimage.convolve`. -/
def ndModes : List String := ["reflect", "constant", "nearest", "mirror", "wrap"]

/-- Modelled from the spec: the boundary extension of a finite signal used by
`scipy.ndimage.convolve` (scipy is not in `src/`), per mode: `reflect`
(`dcba|abcd|dcba`), `constant` (zero fill, the default `cval`), `nearest`
(edge replication), `mirror` (`dcb|abcd|cba`) and `wrap` (periodic).
Unrecognized modes are rejected before this function is reached. -/
def extendMode (mode : String) (r : Row) (i : ℤ) : ℝ :=
  if mode = "reflect" then
    if (r.length : ℤ) = 0 then 0
    else if i % (2 * (r.length : ℤ)) < (r.length : ℤ) then
      r.getD (i % (2 * (r.length : ℤ))).toNat 0
    else r.getD (2 * (r.length : ℤ) - 1 - i % (2 * (r.length : ℤ))).toNat 0
  else if mode = "constant" then
    if 0 ≤ i ∧ i < (r.length : ℤ) then r.getD i.toNat 0 else 0
  else if mode = "nearest" then
    if (r.length : ℤ) = 0 then 0
    else r.getD (min (max i 0) ((r.length : ℤ) - 1)).toNat 0
  else if mode = "mirror" then
    if (r.length : ℤ) ≤ 1 then r.getD 0 0
    else if i % (2 * (r.length : ℤ) - 2) < (r.length : ℤ) then
      r.getD (i % (2 * (r.length : ℤ) - 2)).toNat 0
    else r.getD (2 * (r.length : ℤ) - 2 - i % (2 * (r.length : ℤ) - 2)).toNat 0
  else if mode = "wrap" then
    if (r.length : ℤ) = 0 then 0 else r.getD (i % (r.length : ℤ)).toNat 0
  else 0

/-- Modelled from the spec: `scipy.ndimage.convolve` on one row (scipy is not
in `src/`). It rejects an unrecognized boundary mode, and rejects a weight
vector that is empty or longer than the row (the spec's
`filter_win ≤ 0 or > m → config error`); otherwise
`out[i] = Σ_j w[j] * ext(row)[i + k - j]` with `k = (len(w) - 1) / 2`,
producing a row of the input's length. -/
def ndConvolve (w : Row) (mode : String) (r : Row) : Except String Row :=
  if mode ∉ ndModes then .error "boundary mode not supported"
  else if w.length = 0 ∨ r.length < w.length then .error "invalid filter size"
  else .ok ((List.range r.length).map (fun (i : ℕ) =>
    ∑ j in Finset.range w.length,
      w.getD j 0 * extendMode mode r ((i : ℤ) + ((w.length : ℤ) - 1) / 2 - (j : ℤ))))

/-- Modelled from the spec: `np.ones` for the flat window (numpy is not in
`src/`); a negative length is rejected. -/
def npOnes (n : ℤ) : Except String Row :=
  if n < 0 then .error "negative dimensions are not allowed"
  else .ok (List.replicate n.toNat 1)

/-- The window names the model of `get_window` recognizes (a representative
closed family; the spec describes an open enumeration of standard windows). -/
def knownWindows : List String := ["boxcar", "hann", "hamming"]

/-- Modelled from the spec: `scipy.signal.windows.get_window` (scipy is not in
`src/`): look up a named window family at the given length, failing on an
unknown name or a negative length.  Periodic (fftbins) forms. -/
def getWindow (windowType : String) (n : ℤ) : Except String Row :=
  if windowType ∉ knownWindows then .error "Unknown window type."
  else if n < 0 then .error "Window length M must be a non-negative integer"
  else if windowType = "boxcar" then .ok (List.replicate n.toNat 1)
  else if windowType = "hann" then
    .ok ((List.range n.toNat).map (fun (k : ℕ) =>
      1 / 2 - 1 / 2 * Real.cos (2 * Real.pi * k / n)))
  else
    .ok ((List.range n.toNat).map (fun (k : ℕ) =>
      27 / 50 - 23 / 50 * Real.cos (2 * Real.pi * k / n)))

/-- Normalize a window to unit sum (`window = window / np.sum(window)`). -/
def normalizeW (w : Row) : Row := w.map (fun x => x / w.sum)

/-- The window construction of `smooth` (lines 73-77): a flat window is
`np.ones(filter_win)`, any other name goes through `get_window`. -/
def buildWindow (windowType : String) (filterWin : ℤ) : Except String Row :=
  if windowType = "flat" then npOnes filterWin else getWindow windowType filterWin

/-- Smoothing by windowed convolution, from `src/preprocessing.py`
lines 62-82, as a pure function: build and normalize the window, then convolve
every row with it (stopping at the first failing row). -/
def smooth (spectra : Mat) (filterWin : ℤ) (windowType mode : String) :
    Except String Mat :=
  match buildWindow windowType filterWin with
  | .error e => .error e
  | .ok w => mapE (ndConvolve (normalizeW w) mode) spectra

/-- The row loop of `smooth` as the source writes it: row `i` is convolved and
written back into the caller's buffer (`spectra[row,:] = nd.convolve(...)`).
Returns the result of the loop together with the final buffer; on a failure
the rows already processed stay mutated. -/
def smoothGo (w : Row) (mode : String) : ℕ → ℕ → Mat → Except String Mat × Mat
  | 0, _, buf => (.ok buf, buf)
  | k + 1, i, buf =>
    match ndConvolve w mode (buf.getD i []) with
    | .error e => (.error e, buf)
    | .ok s => smoothGo w mode k (i + 1) (buf.set i s)

/-- `smooth` together with the caller's buffer after the call: the source
mutates the input array in place row by row and returns that same array. -/
def smoothRun (spectra : Mat) (filterWin : ℤ) (windowType mode : String) :
    Except String Mat × Mat :=
  match buildWindow windowType filterWin with
  | .error e => (.error e, spectra)
  | .ok w => smoothGo (normalizeW w) mode spectra.length 0 spectra

/-- The Gram matrix `AᵀA` of the Savitzky-Golay design matrix
`A i j = (i - (w-1)/2)^j` over a window of length `w` and polynomial degree
at most `p`. -/
def sgGram (w p : ℕ) : Matrix (Fin (p + 1)) (Fin (p + 1)) ℝ :=
  Matrix.of fun a b =>
    ∑ i in Finset.range w, ((i : ℝ) - ((w : ℝ) - 1) / 2) ^ ((a : ℕ) + (b : ℕ))

/-- Modelled from the spec: the Savitzky-Golay convolution coefficients
(scipy is not in `src/`): the kernel that evaluates the `d`-th derivative,
scaled by `d!/δ^d`, of the least-squares polynomial of degree `p` fitted on a
centered window of length `w`; row `d` of `(AᵀA)⁻¹Aᵀ` via the adjugate.
For `d > p` the derivative of the fit is identically zero. -/
def savgolCoeffs (w p d : ℕ) (delta : ℝ) : Row :=
  if hd : d ≤ p then
    (List.range w).map (fun i =>
      ((d.factorial : ℝ) / delta ^ d) *
        ∑ j : Fin (p + 1),
          (sgGram w p).det⁻¹ *
            (sgGram w p).adjugate ⟨d, Nat.lt_succ_of_le hd⟩ j *
            ((i : ℝ) - ((w : ℝ) - 1) / 2) ^ (j : ℕ))
  else List.replicate w 0

/-- Apply a fixed convolution kernel to one row with mirror extension at the
edges (the spec's stated boundary practice for Savitzky-Golay filtering),
producing a row of the input's length. -/
def sgApply (k : Row) (r : Row) : Row :=
  (List.range r.length).map (fun (i : ℕ) =>
    ∑ j in Finset.range k.length,
      k.getD j 0 * extendMode "mirror" r ((i : ℤ) + (j : ℤ) - ((k.length : ℤ) - 1) / 2))

/-- Savitzky-Golay filtering, from `src/preprocessing.py` lines 85-98, a
wrapper around `scipy.signal.savgol_filter(spectra, filter_win, poly_order,
deriv_order, delta=delta, axis=1)`.  The parameter validation is modelled from
the spec (scipy is not in `src/`): the window length must be odd, larger than
the polynomial order, and the derivative order must not exceed the polynomial
order; violations fail before any row is touched. -/
def savgol (spectra : Mat) (filterWin polyOrder derivOrder : ℤ) (delta : ℝ) :
    Except String Mat :=
  if filterWin % 2 = 0 then .error "window_length must be odd"
  else if ¬ polyOrder < filterWin then
    .error "polyorder must be less than window_length"
  else if polyOrder < derivOrder then
    .error "deriv must be less than or equal to polyorder"
  else .ok (spectra.map
    (sgApply (savgolCoeffs filterWin.toNat polyOrder.toNat derivOrder.toNat delta)))

/-- `savgol` together with the caller's buffer after the call: the scipy
filter allocates its output, so the input is returned unchanged. -/
def savgolRun (spectra : Mat) (filterWin polyOrder derivOrder : ℤ) (delta : ℝ) :
    Except String Mat × Mat :=
  (savgol spectra filterWin polyOrder derivOrder delta, spectra)

/-- Boolean shape check: `M` has `n` rows, each of length `m`. -/
def isShapeB (M : Mat) (n m : ℕ) : Bool :=
  M.length == n && M.all (fun r => r.length == m)

/-- A fallible result preserves shape `(n, m)` whenever it returns a matrix. -/
def shapeOKE (e : Except String Mat) (n m : ℕ) : Bool :=
  match e with
  | .error _ => true
  | .ok R => isShapeB R n m

/-- Whether a fallible computation returned a matrix. -/
def isOkE (e : Except String Mat) : Bool :=
  match e with
  | .ok _ => true
  | .error _ => false

/-! ### Basic list-arithmetic lemmas -/

lemma sum_map_div (r : Row) (s : ℝ) : (r.map (fun x => x / s)).sum = r.sum / s := by
  induction r with
  | nil => simp
  | cons a t ih => simp [ih, add_div]

lemma sum_map_sub (r : Row) (c : ℝ) :
    (r.map (fun x => x - c)).sum = r.sum - r.length * c := by
  induction r with
  | nil => simp
  | cons a t ih =>
    simp only [List.map_cons, List.sum_cons, ih, List.length_cons]
    push_cast
    ring

lemma sum_map_sq_sub (r : Row) (c : ℝ) :
    (r.map (fun x => (x - c) ^ 2)).sum =
      (r.map (fun x => x ^ 2)).sum - 2 * c * r.sum + r.length * c ^ 2 := by
  induction r with
  | nil => simp
  | cons a t ih =>
    simp only [List.map_cons, List.sum_cons, ih, List.length_cons]
    push_cast
    ring

lemma sum_zip_mul_devs (c d : ℝ) : ∀ x y : Row, x.length = y.length →
    (x.zipWith (fun u v => (u - c) * (v - d)) y).sum =
      (x.zipWith (fun u v => u * v) y).sum - c * y.sum - d * x.sum +
        x.length * (c * d) := by
  intro x
  induction x with
  | nil =>
    intro y hy
    cases y with
    | nil => simp
    | cons b t => simp at hy
  | cons a s ih =>
    intro y hy
    cases y with
    | nil => simp at hy
    | cons b t =>
      simp only [List.length_cons, Nat.succ_inj] at hy
      simp only [List.zipWith_cons_cons, List.sum_cons, ih t hy, List.length_cons,
        List.sum_cons]
      push_cast
      ring

lemma sum_zip_resid0 (a b : ℝ) : ∀ x y : Row, x.length = y.length →
    (x.zipWith (fun u v => v - (a * u + b)) y).sum =
      y.sum - a * x.sum - x.length * b := by
  intro x
  induction x with
  | nil =>
    intro y hy
    cases y with
    | nil => simp
    | cons v t => simp at hy
  | cons u s ih =>
    intro y hy
    cases y with
    | nil => simp at hy
    | cons v t =>
      simp only [List.length_cons, Nat.succ_inj] at hy
      simp only [List.zipWith_cons_cons, List.sum_cons, ih t hy, List.length_cons]
      push_cast
      ring

set_option linter.unusedTactic false

set_option linter.unreachableTactic false

lemma sum_zip_resid1 (a b : ℝ) : ∀ x y : Row, x.length = y.length →
    (x.zipWith (fun u v => u * (v - (a * u + b))) y).sum =
      (x.zipWith (fun u v => u * v) y).sum -
        a * (x.map (fun u => u ^ 2)).sum - b * x.sum := by
  intro x
  induction x with
  | nil =>
    intro y hy
    cases y with
    | nil => simp
    | cons v t => simp at hy
  | cons u s ih =>
    intro y hy
    cases y with
    | nil => simp at hy
    | cons v t =>
      simp only [List.length_cons, Nat.succ_inj] at hy
      simp only [List.zipWith_cons_cons, List.sum_cons, ih t hy, List.map_cons]
      push_cast
      ring

lemma mean_nil : mean [] = 0 := by simp [mean]

lemma pvariance_nonneg (r : Row) : 0 ≤ pvariance r := by
  apply div_nonneg _ (by positivity)
  apply List.sum_nonneg
  intro x hx
  rcases List.mem_map.1 hx with ⟨a, _, rfl⟩
  positivity

lemma pstd_nonneg (r : Row) : 0 ≤ pstd r := Real.sqrt_nonneg _

lemma sq_pstd (r : Row) : pstd r ^ 2 = pvariance r :=
  Real.sq_sqrt (pvariance_nonneg r)

lemma ne_nil_of_pvariance_ne_zero {r : Row} (h : pvariance r ≠ 0) : r ≠ [] := by
  intro hr
  apply h
  subst hr
  simp [pvariance]

lemma pstd_ne_zero_of_pvariance_ne_zero {r : Row} (h : pvariance r ≠ 0) :
    pstd r ≠ 0 := by
  intro hs
  apply h
  have := sq_pstd r
  rw [hs] at this
  simpa using this.symm

/-! ### Ordinary least squares: closed forms and normal equations -/

lemma length_cast_ne_zero {x : Row} (hx : x ≠ []) : ((x.length : ℝ)) ≠ 0 :=
  Nat.cast_ne_zero.2 (fun hlen => hx (List.length_eq_zero.1 hlen))

lemma cov_closed (x y : Row) (h : x.length = y.length) (hx : x ≠ []) :
    cov x y =
      ((x.length : ℝ) * (x.zipWith (fun u v => u * v) y).sum - x.sum * y.sum) /
        (x.length : ℝ) ^ 2 := by
  have hn := length_cast_ne_zero hx
  rw [cov, sum_zip_mul_devs _ _ x y h, mean, mean, ← h]
  field_simp
  ring

lemma pvariance_closed (x : Row) (hx : x ≠ []) :
    pvariance x =
      ((x.length : ℝ) * (x.map (fun u => u ^ 2)).sum - x.sum ^ 2) /
        (x.length : ℝ) ^ 2 := by
  have hn := length_cast_ne_zero hx
  rw [pvariance, sum_map_sq_sub, mean]
  field_simp
  ring

lemma ols_slope_closed (x y : Row) (h : x.length = y.length) (hx : x ≠ []) :
    cov x y / pvariance x =
      ((x.length : ℝ) * (x.zipWith (fun u v => u * v) y).sum - x.sum * y.sum) /
        ((x.length : ℝ) * (x.map (fun u => u ^ 2)).sum - x.sum ^ 2) := by
  have hn2 : ((x.length : ℝ)) ^ 2 ≠ 0 := pow_ne_zero 2 (length_cast_ne_zero hx)
  rw [cov_closed x y h hx, pvariance_closed x hx, div_div_div_cancel_right₀ hn2]

lemma polyfit1_eq_ols (x y : Row) (h : x.length = y.length) :
    polyfit1 x y = .ok (olsFit x y) := by
  rw [polyfit1, if_neg (by simp [h])]
  by_cases hx : x = []
  · subst hx
    have hy : y = [] := List.length_eq_zero.1 (by simpa using h.symm)
    subst hy
    simp [olsFit, cov, pvariance, mean]
  · have hn := length_cast_ne_zero hx
    simp only [olsFit, Except.ok.injEq, Prod.mk.injEq]
    refine ⟨(ols_slope_closed x y h hx).symm, ?_⟩
    rw [mean, mean, ← h, ols_slope_closed x y h hx, sub_div, mul_div_assoc]

lemma pvariance_den_ne_zero {x : Row} (hv : pvariance x ≠ 0) :
    (x.length : ℝ) * (x.map (fun u => u ^ 2)).sum - x.sum ^ 2 ≠ 0 := by
  intro h0
  apply hv
  rw [pvariance_closed x (ne_nil_of_pvariance_ne_zero hv), h0, zero_div]

lemma olsFit_normal (x y : Row) (h : x.length = y.length)
    (hv : pvariance x ≠ 0) :
    residSum0 x y (olsFit x y) = 0 ∧ residSum1 x y (olsFit x y) = 0 := by
  have hx : x ≠ [] := ne_nil_of_pvariance_ne_zero hv
  have hn := length_cast_ne_zero hx
  have hden := pvariance_den_ne_zero hv
  have key2 : cov x y *
      ((x.length : ℝ) * (x.map (fun u => u ^ 2)).sum - x.sum ^ 2) =
      pvariance x *
        ((x.length : ℝ) * (x.zipWith (fun u v => u * v) y).sum - x.sum * y.sum) := by
    rw [cov_closed x y h hx, pvariance_closed x hx]
    ring
  constructor
  · simp only [residSum0, olsFit]
    rw [sum_zip_resid0 _ _ x y h, mean, mean, ← h]
    field_simp
    ring
  · simp only [residSum1, olsFit]
    rw [sum_zip_resid1 _ _ x y h, mean, mean, ← h]
    field_simp
    linear_combination (-((x.length : ℝ) * pvariance x)) * key2

/-! ### `mapE` and the `msc`/spec equivalence -/

lemma mapE_ok_of {f : Row → Except String Row} {g : Row → Row} {l : Mat}
    (h : ∀ r ∈ l, f r = .ok (g r)) : mapE f l = .ok (l.map g) := by
  induction l with
  | nil => rfl
  | cons r rs ih =>
    rw [mapE, h r (by simp), ih (fun s hs => h s (by simp [hs]))]
    rfl

lemma mapE_ok_length {f : Row → Except String Row} :
    ∀ {l R : Mat}, mapE f l = .ok R → R.length = l.length := by
  intro l
  induction l with
  | nil =>
    intro R hR
    rw [mapE] at hR
    cases hR
    rfl
  | cons r rs ih =>
    intro R hR
    rw [mapE] at hR
    cases hfr : f r with
    | error e => rw [hfr] at hR; cases hR
    | ok s =>
      rw [hfr] at hR
      cases hrest : mapE f rs with
      | error e => rw [hrest] at hR; cases hR
      | ok T =>
        rw [hrest] at hR
        cases hR
        simp [ih hrest]

lemma mapE_ok_mem {f : Row → Except String Row} :
    ∀ {l R : Mat}, mapE f l = .ok R → ∀ s ∈ R, ∃ r ∈ l, f r = .ok s := by
  intro l
  induction l with
  | nil =>
    intro R hR
    rw [mapE] at hR
    cases hR
    simp
  | cons r rs ih =>
    intro R hR
    rw [mapE] at hR
    cases hfr : f r with
    | error e => rw [hfr] at hR; cases hR
    | ok s0 =>
      rw [hfr] at hR
      cases hrest : mapE f rs with
      | error e => rw [hrest] at hR; cases hR
      | ok T =>
        rw [hrest] at hR
        cases hR
        intro s hs
        rcases List.mem_cons.1 hs with rfl | hs
        · exact ⟨r, by simp, hfr⟩
        · rcases ih hrest s hs with ⟨r1, hr1, hfr1⟩
          exact ⟨r1, by simp [hr1], hfr1⟩

lemma mapE_cons_error {f : Row → Except String Row} {r : Row} {rs : Mat}
    {e : String} (h : f r = .error e) : mapE f (r :: rs) = .error e := by
  rw [mapE, h]

lemma msc_eq_spec (M : Mat) (reference : Option Row) (m : ℕ)
    (hrect : ∀ r ∈ M, r.length = m)
    (href : ∀ r, reference = some r → r.length = m) :
    msc M reference = .ok (mscSpec M reference) := by
  have main : ∀ ref : Row, (M ≠ [] → ref.length = m) →
      mapE (fun r => (polyfit1 ref r).map
        (fun ab => r.map (fun x => (x - ab.2) / ab.1))) (centerRows M) =
      .ok ((centerRows M).map (fun r =>
        let ab := olsFit ref r
        r.map (fun x => (x - ab.2) / ab.1))) := by
    intro ref hre
    cases M with
    | nil => rfl
    | cons r0 rest =>
      refine mapE_ok_of ?_
      intro r hr
      rcases List.mem_map.1 hr with ⟨orig, horig, rfl⟩
      have hlen : ref.length = (centerRow orig).length := by
        rw [centerRow, List.length_map, hre (by simp), hrect orig horig]
      rw [polyfit1_eq_ols _ _ hlen]
      rfl
  cases reference with
  | none =>
    simp only [msc, mscSpec]
    refine main (colMeans (centerRows M)) ?_
    intro hM
    cases M with
    | nil => exact absurd rfl hM
    | cons r0 rest =>
      simp only [colMeans, centerRows, List.map_cons, List.headD_cons,
        centerRow, List.length_map, List.length_range]
      exact hrect r0 (by simp)
  | some r =>
    simp only [msc, mscSpec]
    exact main r (fun _ => href r rfl)

/-! ### SNV standardization -/

lemma mean_snvRow {r : Row} (hv : pvariance r ≠ 0) : mean (snvRow r) = 0 := by
  have hr : r ≠ [] := ne_nil_of_pvariance_ne_zero hv
  have hn := length_cast_ne_zero hr
  have hsum : (snvRow r).sum = 0 := by
    rw [snvRow]
    have : (fun x => (x - mean r) / pstd r) =
        (fun y => y / pstd r) ∘ (fun x => x - mean r) := rfl
    rw [this, ← List.map_map, sum_map_div, sum_map_sub, mean,
      mul_div_cancel₀ _ hn, sub_self, zero_div]
  rw [mean, hsum, zero_div]

lemma pvariance_snvRow {r : Row} (hv : pvariance r ≠ 0) :
    pvariance (snvRow r) = 1 := by
  have hr : r ≠ [] := ne_nil_of_pvariance_ne_zero hv
  have hn := length_cast_ne_zero hr
  have hs := pstd_ne_zero_of_pvariance_ne_zero hv
  have hs2 : pstd r ^ 2 ≠ 0 := pow_ne_zero 2 hs
  have hsq : ((fun x => (x - 0) ^ 2) ∘ fun x => (x - mean r) / pstd r) =
      (fun y => y / pstd r ^ 2) ∘ (fun x => (x - mean r) ^ 2) := by
    funext x
    simp only [Function.comp_apply, sub_zero, div_pow]
  have hdev : (r.map (fun x => (x - mean r) ^ 2)).sum =
      pvariance r * r.length := by
    rw [pvariance, div_mul_cancel₀ _ hn]
  rw [pvariance, mean_snvRow hv, snvRow, List.map_map, hsq, ← List.map_map,
    sum_map_div, hdev, List.length_map, sq_pstd]
  field_simp

lemma pstd_snvRow {r : Row} (hv : pvariance r ≠ 0) : pstd (snvRow r) = 1 := by
  rw [pstd, pvariance_snvRow hv, Real.sqrt_one]

lemma snvRow_snvRow {r : Row} (hv : pvariance r ≠ 0) :
    snvRow (snvRow r) = snvRow r := by
  conv_lhs => rw [snvRow]
  rw [mean_snvRow hv, pstd_snvRow hv]
  simp

/-! ### Convolution and smoothing -/

lemma getD_in_range {r : Row} {j : ℕ} (h : j < r.length) :
    r.getD j 0 = r.get ⟨j, h⟩ := by
  simp [List.getD_eq_getElem?_getD, List.getElem?_eq_getElem h]

lemma extendMode_in_range {mode : String} (hm : mode ∈ ndModes) (r : Row)
    {i : ℤ} (h0 : 0 ≤ i) (hi : i < (r.length : ℤ)) :
    extendMode mode r i = r.getD i.toNat 0 := by
  have hn : (0 : ℤ) < (r.length : ℤ) := lt_of_le_of_lt h0 hi
  simp only [ndModes, List.mem_cons, List.not_mem_nil, or_false] at hm
  rcases hm with rfl | rfl | rfl | rfl | rfl
  · rw [extendMode, if_pos rfl, if_neg (by omega),
      Int.emod_eq_of_lt h0 (show i < 2 * (r.length : ℤ) by omega), if_pos hi]
  · rw [extendMode, if_neg (by decide), if_pos rfl, if_pos ⟨h0, hi⟩]
  · rw [extendMode, if_neg (by decide), if_neg (by decide), if_pos rfl,
      if_neg (by omega), max_eq_left h0, min_eq_left (by omega)]
  · rw [extendMode, if_neg (by decide), if_neg (by decide), if_neg (by decide),
      if_pos rfl]
    by_cases h1 : (r.length : ℤ) ≤ 1
    · rw [if_pos h1]
      have : i.toNat = 0 := by omega
      rw [this]
    · rw [if_neg h1,
        Int.emod_eq_of_lt h0 (show i < 2 * (r.length : ℤ) - 2 by omega),
        if_pos hi]
  · rw [extendMode, if_neg (by decide), if_neg (by decide), if_neg (by decide),
      if_neg (by decide), if_pos rfl, if_neg (by omega),
      Int.emod_eq_of_lt h0 hi]

lemma getD_range_map (r : Row) :
    (List.range r.length).map (fun j => r.getD j 0) = r := by
  refine List.ext_getElem (by simp) ?_
  intro n h1 h2
  simp only [List.getElem_map, List.getElem_range]
  simp [List.getD_eq_getElem?_getD, List.getElem?_eq_getElem h2]

lemma ndConvolve_ok_length {w : Row} {mode : String} {r s : Row}
    (h : ndConvolve w mode r = .ok s) : s.length = r.length := by
  rw [ndConvolve] at h
  split at h
  · cases h
  · split at h
    · cases h
    · cases h
      simp

lemma ndConvolve_bad_mode {w : Row} {mode : String} {r : Row}
    (h : mode ∉ ndModes) :
    ndConvolve w mode r = .error "boundary mode not supported" := by
  rw [ndConvolve, if_pos h]

lemma ndConvolve_bad_size {w : Row} {mode : String} {r : Row}
    (h : w.length = 0 ∨ r.length < w.length) (hm : mode ∈ ndModes) :
    ndConvolve w mode r = .error "invalid filter size" := by
  rw [ndConvolve, if_neg (by simpa using hm), if_pos h]

lemma ndConvolve_one {mode : String} (hm : mode ∈ ndModes) {r : Row}
    (hr : r ≠ []) : ndConvolve [1] mode r = .ok r := by
  have hlen : (0 : ℕ) < r.length := List.length_pos.2 hr
  rw [ndConvolve, if_neg (by simpa using hm),
    if_neg (by simp only [List.length_cons, List.length_nil]; omega)]
  refine congrArg Except.ok ((List.map_congr_left ?_).trans (getD_range_map r))
  intro i hi
  have hilt : i < r.length := List.mem_range.1 hi
  rw [show ([(1 : ℝ)].length) = 1 from rfl, Finset.sum_range_one]
  norm_num
  rw [extendMode_in_range hm r (Int.natCast_nonneg i) (by exact_mod_cast hilt)]
  simp

lemma getD_lt {α : Type _} (l : List α) (d : α) {j : ℕ} (h : j < l.length) :
    l.getD j d = l[j] := by
  simp [List.getD_eq_getElem?_getD, List.getElem?_eq_getElem h]

lemma take_set_last {l : Mat} {i : ℕ} (h : i < l.length) (s : Row) :
    (l.set i s).take (i + 1) = l.take i ++ [s] := by
  induction l generalizing i with
  | nil => simp at h
  | cons r rs ih =>
    cases i with
    | zero => simp
    | succ n =>
      simp only [List.set_cons_succ, List.take_succ_cons, List.cons_append,
        List.cons.injEq, true_and]
      exact ih (by simpa using h)

lemma drop_set_high (l : Mat) (i : ℕ) (s : Row) :
    (l.set i s).drop (i + 1) = l.drop (i + 1) := by
  rw [List.drop_set, if_pos (by omega)]

lemma smoothGo_fst (w : Row) (md : String) :
    ∀ (k i : ℕ) (buf : Mat), buf.length = i + k →
      (smoothGo w md k i buf).1 =
        (mapE (ndConvolve w md) (buf.drop i)).map (fun rs => buf.take i ++ rs) := by
  intro k
  induction k with
  | zero =>
    intro i buf hlen
    rw [smoothGo, show i = buf.length from by omega, List.drop_length,
      List.take_length]
    simp [mapE, Except.map]
  | succ k ih =>
    intro i buf hlen
    have hib : i < buf.length := by omega
    rw [smoothGo, List.drop_eq_getElem_cons hib, getD_lt buf [] hib, mapE]
    cases hconv : ndConvolve w md buf[i] with
    | error e => simp [hconv, Except.map]
    | ok s =>
      simp only [hconv]
      rw [ih (i + 1) (buf.set i s) (by simp [List.length_set]; omega),
        drop_set_high, take_set_last hib]
      cases hrest : mapE (ndConvolve w md) (buf.drop (i + 1)) with
      | error e => rfl
      | ok T => simp [Except.map]

lemma smoothGo_ok_snd (w : Row) (md : String) :
    ∀ (k i : ℕ) (buf : Mat),
      (smoothGo w md k i buf).1 = .ok ((smoothGo w md k i buf).2) ∨
        isOkE (smoothGo w md k i buf).1 = false := by
  intro k
  induction k with
  | zero => intro i buf; left; rfl
  | succ k ih =>
    intro i buf
    rw [smoothGo]
    cases hconv : ndConvolve w md (buf.getD i []) with
    | error e => right; rfl
    | ok s => exact ih (i + 1) (buf.set i s)

lemma smoothRun_fst (M : Mat) (fw : ℤ) (wt md : String) :
    (smoothRun M fw wt md).1 = smooth M fw wt md := by
  rw [smoothRun, smooth]
  cases hbw : buildWindow wt fw with
  | error e => rfl
  | ok w =>
    rw [smoothGo_fst (normalizeW w) md M.length 0 M (by omega)]
    simp only [List.drop_zero, List.take_zero, List.nil_append]
    cases mapE (ndConvolve (normalizeW w) md) M with
    | error e => rfl
    | ok T => rfl

lemma smoothRun_ok_snd (M : Mat) (fw : ℤ) (wt md : String) :
    (smoothRun M fw wt md).1 = .ok ((smoothRun M fw wt md).2) ∨
      isOkE (smoothRun M fw wt md).1 = false := by
  rw [smoothRun]
  cases hbw : buildWindow wt fw with
  | error e => right; rfl
  | ok w => exact smoothGo_ok_snd (normalizeW w) md M.length 0 M

/-! ### Shape preservation -/

lemma mscRowF_ok {ref r s : Row}
    (h : (polyfit1 ref r).map (fun ab => r.map (fun x => (x - ab.2) / ab.1)) =
      .ok s) : s.length = r.length := by
  cases hab : polyfit1 ref r with
  | error e => rw [hab] at h; simp [Except.map] at h
  | ok ab =>
    rw [hab] at h
    simp only [Except.map, Except.ok.injEq] at h
    rw [← h]
    simp

lemma msc_ok_shape {M R : Mat} {reference : Option Row}
    (h : msc M reference = .ok R) :
    R.length = M.length ∧ ∀ s ∈ R, ∃ orig ∈ M, s.length = orig.length := by
  simp only [msc] at h
  constructor
  · rw [mapE_ok_length h]
    simp [centerRows]
  · intro s hs
    rcases mapE_ok_mem h s hs with ⟨r, hr, hfr⟩
    rcases List.mem_map.1 hr with ⟨orig, horig, rfl⟩
    refine ⟨orig, horig, ?_⟩
    rw [mscRowF_ok hfr]
    simp [centerRow]

lemma smooth_ok_shape {M R : Mat} {fw : ℤ} {wt md : String}
    (h : smooth M fw wt md = .ok R) :
    R.length = M.length ∧ ∀ s ∈ R, ∃ orig ∈ M, s.length = orig.length := by
  rw [smooth] at h
  cases hbw : buildWindow wt fw with
  | error e => rw [hbw] at h; cases h
  | ok w =>
    rw [hbw] at h
    exact ⟨mapE_ok_length h, fun s hs => by
      rcases mapE_ok_mem h s hs with ⟨r, hr, hconv⟩
      exact ⟨r, hr, ndConvolve_ok_length hconv⟩⟩

lemma sgApply_length (k r : Row) : (sgApply k r).length = r.length := by
  simp [sgApply]

lemma savgol_ok_shape {M R : Mat} {fw po dv : ℤ} {delta : ℝ}
    (h : savgol M fw po dv delta = .ok R) :
    R.length = M.length ∧ ∀ s ∈ R, ∃ orig ∈ M, s.length = orig.length := by
  rw [savgol] at h
  split at h
  · cases h
  · split at h
    · cases h
    · split at h
      · cases h
      · cases h
        constructor
        · simp
        · intro s hs
          rcases List.mem_map.1 hs with ⟨orig, horig, rfl⟩
          exact ⟨orig, horig, sgApply_length _ _⟩

/-! ### Error paths of `smooth` -/

lemma buildWindow_flat (fw : ℤ) : buildWindow "flat" fw = npOnes fw := by
  rw [buildWindow, if_pos rfl]

lemma buildWindow_unknown {wt : String} (h1 : wt ≠ "flat")
    (h2 : wt ∉ knownWindows) (fw : ℤ) :
    buildWindow wt fw = .error "Unknown window type." := by
  rw [buildWindow, if_neg h1, getWindow, if_pos h2]

lemma buildWindow_neg {wt : String} {fw : ℤ} (hfw : fw < 0) {w : Row} :
    buildWindow wt fw ≠ .ok w := by
  rw [buildWindow]
  split
  · rw [npOnes, if_pos hfw]
    intro h
    cases h
  · rw [getWindow]
    intro h
    split at h <;> first | cases h | omega

lemma buildWindow_ok_length {wt : String} {fw : ℤ} {w : Row}
    (h : buildWindow wt fw = .ok w) : w.length = fw.toNat := by
  rw [buildWindow] at h
  split at h
  · rw [npOnes] at h
    split at h
    · cases h
    · cases h; simp
  · rw [getWindow] at h
    split at h
    · cases h
    · split at h
      · cases h
      · split at h
        · cases h; simp
        · split at h
          · cases h; simp
          · cases h; simp

lemma normalizeW_length (w : Row) : (normalizeW w).length = w.length := by
  simp [normalizeW]

lemma smooth_win1_flat {M : Mat} {md : String} (hmd : md ∈ ndModes)
    (hrows : ∀ r ∈ M, r ≠ ([] : Row)) : smooth M 1 "flat" md = .ok M := by
  have hbw : buildWindow "flat" (1 : ℤ) = .ok [1] := by
    rw [buildWindow_flat, npOnes, if_neg (by norm_num)]
    rfl
  have hnorm : normalizeW [1] = [1] := by simp [normalizeW]
  rw [smooth, hbw]
  show mapE (ndConvolve (normalizeW [1]) md) M = .ok M
  rw [hnorm, mapE_ok_of (fun r hr => ndConvolve_one hmd (hrows r hr))]
  simp

lemma isShapeB_iff {M : Mat} {n m : ℕ} :
    isShapeB M n m = true ↔ M.length = n ∧ ∀ r ∈ M, r.length = m := by
  simp [isShapeB]

/-! ### Claim theorems -/

lemma shapeOKE_of_shape {e : Except String Mat} {n m : ℕ} {M : Mat}
    (hn : M.length = n) (hm : ∀ r ∈ M, r.length = m)
    (hsh : ∀ R, e = .ok R →
      R.length = M.length ∧ ∀ s ∈ R, ∃ orig ∈ M, s.length = orig.length) :
    shapeOKE e n m = true := by
  cases he : e with
  | error e0 => rfl
  | ok R =>
    show isShapeB R n m = true
    obtain ⟨h1, h2⟩ := hsh R he
    refine isShapeB_iff.2 ⟨by rw [h1, hn], ?_⟩
    intro s hs
    rcases h2 s hs with ⟨o, ho, hs2⟩
    rw [hs2, hm o ho]

/-- C1: `msc` computes its result by the spec's algorithm: it mean-centers each
row, takes the reference to be the column-wise mean of the mean-centered matrix
when none is supplied (and the supplied reference unchanged otherwise), fits
slope `a` and intercept `b` by ordinary least squares regressing each
mean-centered row against the reference, and returns rows corrected as
`(row - b) / a`; the fitted pair moreover satisfies the least-squares normal
equations whenever the regressor has nonzero variance. -/
theorem msc_follows_spec_algorithm (M : Mat) (reference : Option Row) (m : ℕ)
    (hrect : ∀ r ∈ M, r.length = m)
    (href : ∀ r, reference = some r → r.length = m) :
    msc M reference = .ok (mscSpec M reference) ∧
    ∀ x y : Row, x.length = y.length → pvariance x ≠ 0 →
      residSum0 x y (olsFit x y) = 0 ∧ residSum1 x y (olsFit x y) = 0 :=
  ⟨msc_eq_spec M reference m hrect href, fun x y h hv => olsFit_normal x y h hv⟩

/-- Witness for C1 at the matrix `[[0,2],[2,6]]` with no supplied reference. -/
theorem msc_follows_spec_algorithm_witness :
    (∀ r ∈ ([[0, 2], [2, 6]] : Mat), r.length = 2) ∧
    (∀ r : Row, (none : Option Row) = some r → r.length = 2) ∧
    (msc [[0, 2], [2, 6]] none = .ok (mscSpec [[0, 2], [2, 6]] none) ∧
      ∀ x y : Row, x.length = y.length → pvariance x ≠ 0 →
        residSum0 x y (olsFit x y) = 0 ∧ residSum1 x y (olsFit x y) = 0) := by
  have h1 : ∀ r ∈ ([[0, 2], [2, 6]] : Mat), r.length = 2 := by
    intro r hr
    simp only [List.mem_cons, List.not_mem_nil, or_false] at hr
    rcases hr with rfl | rfl <;> rfl
  have h2 : ∀ r : Row, (none : Option Row) = some r → r.length = 2 := by
    intro r h
    cases h
  exact ⟨h1, h2, msc_follows_spec_algorithm [[0, 2], [2, 6]] none 2 h1 h2⟩

/-- C2: each output row of `snv` is the input row standardized by its mean and
population (N-divisor) standard deviation; a row of nonzero variance is mapped
to a row of mean `0` and population standard deviation `1` (exact equalities in
the idealized real arithmetic, matching the spec's floating-point tolerance). -/
theorem snv_standardizes (M : Mat) (i : ℕ) (hi : i < M.length) :
    (snv M).getD i [] =
      (M.getD i []).map
        (fun x => (x - mean (M.getD i [])) / pstd (M.getD i [])) ∧
    (pvariance (M.getD i []) ≠ 0 →
      mean ((snv M).getD i []) = 0 ∧ pstd ((snv M).getD i []) = 1) := by
  have h1 : (snv M).getD i [] = snvRow (M.getD i []) := by
    rw [snv, getD_lt M [] hi, getD_lt (M.map snvRow) [] (by simpa using hi),
      List.getElem_map]
  refine ⟨by rw [h1, snvRow], fun hv => ?_⟩
  rw [h1]
  exact ⟨mean_snvRow hv, pstd_snvRow hv⟩

/-- Witness for C2 at `[[1,3]]`, row 0, whose variance is nonzero. -/
theorem snv_standardizes_witness :
    (0 < ([[1, 3]] : Mat).length) ∧
    pvariance (([[1, 3]] : Mat).getD 0 []) ≠ 0 ∧
    ((snv [[1, 3]]).getD 0 [] =
      (([[1, 3]] : Mat).getD 0 []).map
        (fun x => (x - mean (([[1, 3]] : Mat).getD 0 [])) /
          pstd (([[1, 3]] : Mat).getD 0 [])) ∧
    (pvariance (([[1, 3]] : Mat).getD 0 []) ≠ 0 →
      mean ((snv [[1, 3]]).getD 0 []) = 0 ∧
        pstd ((snv [[1, 3]]).getD 0 []) = 1)) :=
  ⟨by norm_num, by norm_num [pvariance, mean],
    snv_standardizes [[1, 3]] 0 (by norm_num)⟩

/-- C3: for rectangular input, every matrix any of the four transforms returns
has the input's shape `(n, m)`. -/
theorem transforms_preserve_shape (M : Mat) (n m : ℕ) (reference : Option Row)
    (fw : ℤ) (wt md : String) (sw sp sd : ℤ) (delta : ℝ)
    (hshape : isShapeB M n m = true) :
    shapeOKE (msc M reference) n m = true ∧
    isShapeB (snv M) n m = true ∧
    shapeOKE (smooth M fw wt md) n m = true ∧
    shapeOKE (savgol M sw sp sd delta) n m = true := by
  obtain ⟨hn, hm⟩ := isShapeB_iff.1 hshape
  refine ⟨shapeOKE_of_shape hn hm (fun R h => msc_ok_shape h), ?_,
    shapeOKE_of_shape hn hm (fun R h => smooth_ok_shape h),
    shapeOKE_of_shape hn hm (fun R h => savgol_ok_shape h)⟩
  refine isShapeB_iff.2 ⟨by simpa [snv] using hn, ?_⟩
  intro s hs
  rcases List.mem_map.1 hs with ⟨orig, horig, rfl⟩
  simpa [snvRow] using hm orig horig

/-- Witness for C3 at the 2-by-2 matrix `[[1,2],[3,4]]` with valid parameters
for all four transforms. -/
theorem transforms_preserve_shape_witness :
    isShapeB ([[1, 2], [3, 4]] : Mat) 2 2 = true ∧
    (shapeOKE (msc [[1, 2], [3, 4]] none) 2 2 = true ∧
    isShapeB (snv [[1, 2], [3, 4]]) 2 2 = true ∧
    shapeOKE (smooth [[1, 2], [3, 4]] 1 "flat" "reflect") 2 2 = true ∧
    shapeOKE (savgol [[1, 2], [3, 4]] 3 1 0 1) 2 2 = true) :=
  ⟨rfl, transforms_preserve_shape [[1, 2], [3, 4]] 2 2 none 1 "flat" "reflect"
    3 1 0 1 rfl⟩

/-- C4: `msc`, `snv` and `savgol` leave the caller's buffer unchanged, while
`smooth` runs its row loop in place on the caller's buffer: whenever its loop
returns a matrix, that matrix is the final buffer itself, and the loop computes
the same result as the pure row-wise convolution. -/
theorem transform_buffer_effects (M : Mat) (reference : Option Row) (fw : ℤ)
    (wt md : String) (sw sp sd : ℤ) (delta : ℝ) :
    (mscRun M reference).2 = M ∧ (snvRun M).2 = M ∧
    (savgolRun M sw sp sd delta).2 = M ∧
    (smoothRun M fw wt md).1 = smooth M fw wt md ∧
    ((smoothRun M fw wt md).1 = .ok ((smoothRun M fw wt md).2) ∨
      isOkE (smoothRun M fw wt md).1 = false) :=
  ⟨rfl, rfl, rfl, smoothRun_fst M fw wt md, smoothRun_ok_snd M fw wt md⟩

/-- C6: whenever the window length is even, or not greater than the polynomial
order, or the derivative order exceeds the polynomial order, `savgol` fails
with a configuration error, and the failure is independent of the input matrix
(no row is processed): the result equals the result on the empty matrix. -/
theorem savgol_validation_errors (M : Mat) (sw sp sd : ℤ) (delta : ℝ)
    (hcond : sw % 2 = 0 ∨ sw ≤ sp ∨ sp < sd) :
    isOkE (savgol M sw sp sd delta) = false ∧
    savgol M sw sp sd delta = savgol [] sw sp sd delta := by
  by_cases h1 : sw % 2 = 0
  · simp only [savgol, if_pos h1]
    exact ⟨rfl, trivial⟩
  · have h2 : sw ≤ sp ∨ sp < sd := by
      rcases hcond with h | h | h
      · exact absurd h h1
      · exact Or.inl h
      · exact Or.inr h
    by_cases h3 : sp < sw
    · have h4 : sp < sd := by
        rcases h2 with h | h
        · omega
        · exact h
      simp only [savgol, if_neg h1, if_neg (not_not_intro h3), if_pos h4]
      exact ⟨rfl, trivial⟩
    · simp only [savgol, if_neg h1, if_pos h3]
      exact ⟨rfl, trivial⟩

/-- Witness for C6 with the even window length 4. -/
theorem savgol_validation_errors_witness :
    ((4 : ℤ) % 2 = 0 ∨ (4 : ℤ) ≤ 2 ∨ (2 : ℤ) < 0) ∧
    (isOkE (savgol [[1, 2]] 4 2 0 1) = false ∧
      savgol ([[1, 2]] : Mat) 4 2 0 1 = savgol [] 4 2 0 1) :=
  ⟨Or.inl (by norm_num),
    savgol_validation_errors [[1, 2]] 4 2 0 1 (Or.inl (by norm_num))⟩

/-- C7 (amended): on a matrix with at least one row of length `m`, `smooth`
fails with a configuration error (returning no matrix) when the window type is
unrecognized, when the mode is unrecognized, or when `filter_win ≤ 0` or
`filter_win > m`.  Independently of the number of rows, the checks performed
before the row loop still fail: an unrecognized window type, or a negative
`filter_win` (`np.ones` raises).  On a zero-row matrix the per-row checks
never run: with a valid window build (the flat window at `filter_win ≥ 0`),
`smooth` returns the empty matrix whatever the mode. -/
theorem smooth_config_errors (M : Mat) (m : ℕ) (fw : ℤ) (wt md : String)
    (hrect : ∀ r ∈ M, r.length = m) :
    (M ≠ [] →
      ((wt ≠ "flat" ∧ wt ∉ knownWindows) ∨ md ∉ ndModes ∨ fw ≤ 0 ∨
        (m : ℤ) < fw) →
      isOkE (smooth M fw wt md) = false) ∧
    ((wt ≠ "flat" ∧ wt ∉ knownWindows) → isOkE (smooth M fw wt md) = false) ∧
    (fw < 0 → isOkE (smooth M fw wt md) = false) ∧
    (0 ≤ fw → smooth ([] : Mat) fw "flat" md = .ok []) := by
  refine ⟨?_, ?_, ?_, ?_⟩
  · intro hM hcond
    obtain ⟨r0, rest, rfl⟩ : ∃ r0 rest, M = r0 :: rest := by
      cases M with
      | nil => exact absurd rfl hM
      | cons a l => exact ⟨a, l, rfl⟩
    have hr0 : r0.length = m := hrect r0 (by simp)
    rcases hcond with ⟨hw1, hw2⟩ | hmd | hfw | hfw
    · rw [smooth, buildWindow_unknown hw1 hw2]
      rfl
    · cases hbw : buildWindow wt fw with
      | error e => rw [smooth, hbw]; rfl
      | ok w =>
        rw [smooth, hbw]
        show isOkE (mapE (ndConvolve (normalizeW w) md) (r0 :: rest)) = false
        rw [mapE_cons_error (ndConvolve_bad_mode hmd)]
        rfl
    · rcases lt_or_eq_of_le hfw with hlt | heq
      · cases hbw : buildWindow wt fw with
        | error e => rw [smooth, hbw]; rfl
        | ok w => exact absurd hbw (buildWindow_neg hlt)
      · subst heq
        cases hbw : buildWindow wt 0 with
        | error e => rw [smooth, hbw]; rfl
        | ok w =>
          have hwlen : w.length = 0 := by simpa using buildWindow_ok_length hbw
          rw [smooth, hbw]
          show isOkE (mapE (ndConvolve (normalizeW w) md) (r0 :: rest)) = false
          by_cases hmd2 : md ∈ ndModes
          · rw [mapE_cons_error (ndConvolve_bad_size
              (Or.inl (by rw [normalizeW_length, hwlen])) hmd2)]
            rfl
          · rw [mapE_cons_error (ndConvolve_bad_mode hmd2)]
            rfl
    · cases hbw : buildWindow wt fw with
      | error e => rw [smooth, hbw]; rfl
      | ok w =>
        have hwlen : w.length = fw.toNat := buildWindow_ok_length hbw
        rw [smooth, hbw]
        show isOkE (mapE (ndConvolve (normalizeW w) md) (r0 :: rest)) = false
        by_cases hmd2 : md ∈ ndModes
        · have hsz : r0.length < (normalizeW w).length := by
            rw [hr0, normalizeW_length, hwlen]
            omega
          rw [mapE_cons_error (ndConvolve_bad_size (Or.inr hsz) hmd2)]
          rfl
        · rw [mapE_cons_error (ndConvolve_bad_mode hmd2)]
          rfl
  · rintro ⟨hw1, hw2⟩
    rw [smooth, buildWindow_unknown hw1 hw2]
    rfl
  · intro hneg
    cases hbw : buildWindow wt fw with
    | error e => rw [smooth, hbw]; rfl
    | ok w => exact absurd hbw (buildWindow_neg hneg)
  · intro hpos
    rw [smooth, buildWindow_flat, npOnes, if_neg (not_lt.2 hpos)]
    rfl

/-- Witness for C7: a 1-by-2 matrix with `filter_win = 3 > m = 2`, together
with the instantiated pre-loop and zero-row conclusions. -/
theorem smooth_config_errors_witness :
    (∀ r ∈ ([[1, 2]] : Mat), r.length = 2) ∧
    isOkE (smooth [[1, 2]] 3 "flat" "reflect") = false ∧
    ((([[1, 2]] : Mat) ≠ [] →
      (("flat" ≠ "flat" ∧ "flat" ∉ knownWindows) ∨ "reflect" ∉ ndModes ∨
        (3 : ℤ) ≤ 0 ∨ ((2 : ℕ) : ℤ) < 3) →
      isOkE (smooth [[1, 2]] 3 "flat" "reflect") = false) ∧
    (("flat" ≠ "flat" ∧ "flat" ∉ knownWindows) →
      isOkE (smooth [[1, 2]] 3 "flat" "reflect") = false) ∧
    ((3 : ℤ) < 0 → isOkE (smooth [[1, 2]] 3 "flat" "reflect") = false) ∧
    ((0 : ℤ) ≤ 3 → smooth ([] : Mat) 3 "flat" "reflect" = .ok [])) := by
  have h1 : ∀ r ∈ ([[1, 2]] : Mat), r.length = 2 := by
    intro r hr
    simp only [List.mem_cons, List.not_mem_nil, or_false] at hr
    rcases hr with rfl
    rfl
  have hmain := smooth_config_errors [[1, 2]] 2 3 "flat" "reflect" h1
  exact ⟨h1, hmain.1 (by simp) (Or.inr (Or.inr (Or.inr (by norm_num)))), hmain⟩

/-- Counterexample to C7 as stated: on a zero-row matrix the per-row mode check
never runs, so `smooth` with an unrecognized mode returns the empty matrix
instead of failing. -/
theorem smooth_empty_matrix_no_error :
    smooth ([] : Mat) 3 "flat" "bogus" = .ok [] := by
  rw [smooth, buildWindow_flat, npOnes, if_neg (by norm_num)]
  rfl

/-- C8 (amended): on a matrix with at least one row of length `m` and a
supplied reference of a different length, `msc` fails with the shape-mismatch
error reporting the expected length `m` and the actual reference length, and
produces no output matrix. -/
theorem msc_reference_mismatch (M : Mat) (m : ℕ) (r : Row)
    (hrect : ∀ row ∈ M, row.length = m) (hM : M ≠ []) (hr : r.length ≠ m) :
    msc M (some r) = .error (lengthErr m r.length) := by
  obtain ⟨r0, rest, rfl⟩ : ∃ r0 rest, M = r0 :: rest := by
    cases M with
    | nil => exact absurd rfl hM
    | cons a l => exact ⟨a, l, rfl⟩
  have hc : (centerRow r0).length = m := by
    simp only [centerRow, List.length_map]
    exact hrect r0 (by simp)
  have hf : (polyfit1 r (centerRow r0)).map
      (fun ab => (centerRow r0).map (fun x => (x - ab.2) / ab.1)) =
      .error (lengthErr m r.length) := by
    rw [polyfit1, if_pos (by rw [hc]; exact hr), hc]
    rfl
  simp only [msc, centerRows, List.map_cons]
  exact mapE_cons_error hf

/-- Witness for C8: reference of length 3 against a 1-by-2 matrix. -/
theorem msc_reference_mismatch_witness :
    (∀ row ∈ ([[1, 2]] : Mat), row.length = 2) ∧ ([[1, 2]] : Mat) ≠ [] ∧
    ([(5 : ℝ), 6, 7].length ≠ 2) ∧
    msc [[1, 2]] (some [5, 6, 7]) = .error (lengthErr 2 [(5 : ℝ), 6, 7].length) := by
  have h1 : ∀ row ∈ ([[1, 2]] : Mat), row.length = 2 := by
    intro row hrow
    simp only [List.mem_cons, List.not_mem_nil, or_false] at hrow
    rcases hrow with rfl
    rfl
  exact ⟨h1, by simp, by norm_num,
    msc_reference_mismatch [[1, 2]] 2 [5, 6, 7] h1 (by simp) (by norm_num)⟩

/-- Counterexample to C8 as stated: on a zero-row matrix the regression (and
with it the length check) never runs, so `msc` with a mismatched reference
returns the empty matrix instead of failing. -/
theorem msc_empty_matrix_no_error : msc ([] : Mat) (some [1]) = .ok [] := rfl

/-- C9 (amended): `smooth` with `filter_win = 1` and the flat window is the
identity for every recognized boundary mode, on matrices all of whose rows are
nonempty. -/
theorem smooth_win1_identity (M : Mat) (md : String) (hmd : md ∈ ndModes)
    (hrows : ∀ r ∈ M, r ≠ ([] : Row)) : smooth M 1 "flat" md = .ok M :=
  smooth_win1_flat hmd hrows

/-- Witness for C9 at `[[1,2]]` with mode `reflect`. -/
theorem smooth_win1_identity_witness :
    ("reflect" ∈ ndModes) ∧ (∀ r ∈ ([[1, 2]] : Mat), r ≠ ([] : Row)) ∧
    smooth ([[1, 2]] : Mat) 1 "flat" "reflect" = .ok [[1, 2]] := by
  have h2 : ∀ r ∈ ([[1, 2]] : Mat), r ≠ ([] : Row) := by
    intro r hr
    simp only [List.mem_cons, List.not_mem_nil, or_false] at hr
    rcases hr with rfl
    simp
  exact ⟨by simp [ndModes], h2,
    smooth_win1_identity [[1, 2]] "reflect" (by simp [ndModes]) h2⟩

/-- Counterexample to C9 as stated: on a matrix with a zero-length row,
`smooth` with `filter_win = 1` hits the filter-size configuration error
(`filter_win > m` with `m = 0`) instead of acting as the identity. -/
theorem smooth_win1_zero_channels :
    smooth [([] : Row)] 1 "flat" "reflect" = .error "invalid filter size" := by
  have hbw : buildWindow "flat" (1 : ℤ) = .ok [1] := by
    rw [buildWindow_flat, npOnes, if_neg (by norm_num)]
    rfl
  rw [smooth, hbw]
  show mapE (ndConvolve (normalizeW [1]) "reflect") [([] : Row)] =
    .error "invalid filter size"
  have hnorm : normalizeW [(1 : ℝ)] = [1] := by simp [normalizeW]
  rw [hnorm,
    mapE_cons_error (ndConvolve_bad_size (Or.inr (by simp)) (by simp [ndModes]))]

/-- C10: `snv` is idempotent on matrices all of whose rows have nonzero
variance, because each output row already has zero mean and unit population
standard deviation. -/
theorem snv_idempotent (M : Mat) (h : ∀ r ∈ M, pvariance r ≠ 0) :
    snv (snv M) = snv M := by
  simp only [snv, List.map_map]
  exact List.map_congr_left (fun r hr => snvRow_snvRow (h r hr))

/-- Witness for C10 at `[[0,2]]`, whose single row has variance 1. -/
theorem snv_idempotent_witness :
    (∀ r ∈ ([[0, 2]] : Mat), pvariance r ≠ 0) ∧
    snv (snv [[0, 2]]) = snv ([[0, 2]] : Mat) := by
  have h : ∀ r ∈ ([[0, 2]] : Mat), pvariance r ≠ 0 := by
    intro r hr
    simp only [List.mem_cons, List.not_mem_nil, or_false] at hr
    rcases hr with rfl
    norm_num [pvariance, mean]
  exact ⟨h, snv_idempotent [[0, 2]] h⟩

end

end Preprocessing
